import Mathlib

/-!
# Verification of `scripts/parse_to_csv.py`

Shallow embedding of the log-to-CSV transformation script.  The script
compiles one regular expression, scans the input file line by line,
collects a `TradeRecord` per matching line, folds the records into
per-symbol aggregates (count, hits, misses, pnl sum, running max/min),
and emits a per-trade table and a lexicographically sorted summary table.

Modelling conventions:
* Python `float` values are modelled as exact rationals `ℚ`; the numeric
  tokens of the grammar are plain decimal strings, so their values are
  exact rationals.  (IEEE-754 rounding of the accumulation and of
  `round(x, 2)` is idealised away; `round` is modelled as exact decimal
  rounding, half to even, as CPython does on exactly representable
  values.)
* The `re` classes `\d` and `\s` are modelled on their ASCII fragments
  (the log format is ASCII).
* The regular expression is executed by a small backtracking engine
  (`ways`/`waysSeq`) that returns every way a pattern can match a prefix
  of the input, in exactly the preference order of Python's
  leftmost/greedy/lazy backtracking search; the overall match is the
  first element.  The pattern `line_re` is transcribed element by
  element from the source string
  `^(\d{4}/\d{2}/\d{2} \d{2}:\d{2}:\d{2}) .*?(HIT:|MISS:)\s+([^|]+) \| PnL=\$(-?[0-9.]+) \| Capital=\$([0-9.]+) \| Trades: (\d+)/(\d+)`.
  Since the pattern is anchored with `^` and the script has no
  `re.MULTILINE` flag, `line_re.search(line)` can only match at the very
  first character, so the search is a single anchored match.
-/

namespace MSB

/-- ASCII fragment of the `\d` class of `re`. -/
def isDigitCh (c : Char) : Bool := c.isDigit

/-- ASCII fragment of the `\s` class of `re`. -/
def isSpaceCh (c : Char) : Bool :=
  c == ' ' || c == '\t' || c == '\n' || c == '\r' || c == '\x0b' || c == '\x0c'

/-- The `.` metacharacter (no DOTALL flag): any character except a newline. -/
def isNotNL (c : Char) : Bool := c != '\n'

/-- The character class `[^|]`. -/
def isNotBar (c : Char) : Bool := c != '|'

/-- The character class `[0-9.]`. -/
def isDigitDot (c : Char) : Bool := c.isDigit || c == '.'

/-- Captured groups: association list from group number to captured text. -/
abbrev Caps := List (Nat × List Char)

/-- The regex constructs occurring in `line_re`, one constructor per
construct.  Groups are numbered as in the source pattern. -/
inductive Re where
  /-- a literal character -/
  | lit (c : Char) : Re
  /-- one character of a class -/
  | cls (p : Char → Bool) : Re
  /-- greedy `+` over a class, not capturing (`\s+`) -/
  | plusNC (p : Char → Bool) : Re
  /-- lazy `*?` over a class (`.*?`) -/
  | lazyStar (p : Char → Bool) : Re
  /-- capturing group over a fixed-length sequence of single-character
  items (the timestamp group) -/
  | gfixed (n : Nat) (ps : List (Char → Bool)) : Re
  /-- capturing greedy `+` over a class (`([^|]+)`, `([0-9.]+)`, `(\d+)`) -/
  | gplus (n : Nat) (p : Char → Bool) : Re
  /-- capturing greedy optional literal followed by greedy `+` over a
  class (`(-?[0-9.]+)`) -/
  | goptplus (n : Nat) (c : Char) (p : Char → Bool) : Re
  /-- capturing alternation of two literal strings (`(HIT:|MISS:)`) -/
  | galt (n : Nat) (a b : List Char) : Re

/-- Length of the longest prefix of `s` whose characters all satisfy `p`. -/
def maxRun (p : Char → Bool) : List Char → Nat
  | [] => 0
  | c :: s => if p c then maxRun p s + 1 else 0

/-- Does `s` start with one character for each predicate in `ps`, in order? -/
def fixedMatch : List (Char → Bool) → List Char → Bool
  | [], _ => true
  | _ :: _, [] => false
  | p :: ps, c :: s => p c && fixedMatch ps s

/-- Every way one regex element can match a prefix of `s`: the produced
captures together with the remaining suffix, listed in the preference
order of Python's backtracking engine (greedy quantifiers longest first,
lazy quantifiers shortest first, alternation left branch first). -/
def ways : Re → List Char → List (Caps × List Char)
  | .lit _, [] => []
  | .lit c, d :: s => if d = c then [([], s)] else []
  | .cls _, [] => []
  | .cls p, d :: s => if p d then [([], s)] else []
  | .plusNC p, s =>
      let m := maxRun p s
      (List.range m).map (fun i => ([], s.drop (m - i)))
  | .lazyStar p, s =>
      let m := maxRun p s
      (List.range (m + 1)).map (fun i => ([], s.drop i))
  | .gfixed n ps, s =>
      if fixedMatch ps s then [([(n, s.take ps.length)], s.drop ps.length)] else []
  | .gplus n p, s =>
      let m := maxRun p s
      (List.range m).map (fun i => ([(n, s.take (m - i))], s.drop (m - i)))
  | .goptplus n c p, s =>
      (match s with
       | d :: s' =>
         if d = c then
           let m := maxRun p s'
           (List.range m).map (fun i => ([(n, c :: s'.take (m - i))], s'.drop (m - i)))
         else []
       | [] => []) ++
      (let m := maxRun p s
       (List.range m).map (fun i => ([(n, s.take (m - i))], s.drop (m - i))))
  | .galt n a b, s =>
      (if a.isPrefixOf s then [([(n, a)], s.drop a.length)] else []) ++
      (if b.isPrefixOf s then [([(n, b)], s.drop b.length)] else [])

/-- Every way a sequence of regex elements can match a prefix of `s`,
in backtracking preference order. -/
def waysSeq : List Re → List Char → List (Caps × List Char)
  | [], s => [([], s)]
  | r :: rs, s =>
      (ways r s).flatMap (fun cs => (waysSeq rs cs.2).map (fun ct => (cs.1 ++ ct.1, ct.2)))

/-- A literal string, one `Re.lit` per character. -/
def litStr (s : List Char) : List Re := s.map .lit

/-- The single-character items of `(\d{4}/\d{2}/\d{2} \d{2}:\d{2}:\d{2})`. -/
def tsShape : List (Char → Bool) :=
  [isDigitCh, isDigitCh, isDigitCh, isDigitCh, (· == '/'), isDigitCh, isDigitCh, (· == '/'),
   isDigitCh, isDigitCh, (· == ' '), isDigitCh, isDigitCh, (· == ':'), isDigitCh, isDigitCh,
   (· == ':'), isDigitCh, isDigitCh]

/-- `line_re`, transcribed element by element from the source pattern
(after the `^` anchor, which is accounted for in `matchLine`). -/
def line_re : List Re :=
  [.gfixed 1 tsShape, .lit ' ', .lazyStar isNotNL,
   .galt 2 "HIT:".data "MISS:".data,
   .plusNC isSpaceCh, .gplus 3 isNotBar] ++
  litStr " | PnL=$".data ++
  [.goptplus 4 '-' isDigitDot] ++
  litStr " | Capital=$".data ++
  [.gplus 5 isDigitDot] ++
  litStr " | Trades: ".data ++
  [.gplus 6 isDigitCh, .lit '/', .gplus 7 isDigitCh]

/-- `line_re.search(line)`: since the pattern is `^`-anchored and the
script does not use `re.MULTILINE`, the search can only succeed at
position 0, so it is the first (preference-ordered) anchored match. -/
def matchLine (s : List Char) : Option Caps :=
  ((waysSeq line_re s).head?).map Prod.fst

/-- `m.group(n)`: the text of capture group `n` (every group of
`line_re` captures exactly once on a successful match). -/
def grp (caps : Caps) (n : Nat) : List Char :=
  (caps.lookup n).getD []

/-- `int(t)` on a token of all-ASCII digits (the `(\d+)` groups). -/
def digitsToNat (t : List Char) : Nat :=
  t.foldl (fun a c => a * 10 + (c.toNat - '0'.toNat)) 0

/-- `float(t)` on an unsigned token, modelled for strings over the token
alphabet of the pattern (digits and dots): optional integer part, then
optionally a dot and a fractional part; at least one digit overall and
nothing may remain.  Forms such as `1.2.3`, `.` or the empty string are
rejected, exactly as CPython's `float` rejects them. -/
def pyUFloat (t : List Char) : Option ℚ :=
  let d1 := t.takeWhile isDigitCh
  let r := t.dropWhile isDigitCh
  if r = [] then
    if d1 = [] then none else some (digitsToNat d1 : ℚ)
  else if r.head? = some '.' then
    let d2 := r.tail.takeWhile isDigitCh
    let r3 := r.tail.dropWhile isDigitCh
    if r3 = [] then
      if d1 = [] ∧ d2 = [] then none
      else some ((digitsToNat d1 : ℚ) + (digitsToNat d2 : ℚ) / (10 : ℚ) ^ d2.length)
    else none
  else none

/-- `float(t)`: optional leading minus sign, then an unsigned float.
(The pattern's tokens never carry a `+` sign or whitespace.) -/
def pyFloat (t : List Char) : Option ℚ :=
  if t.head? = some '-' then (pyUFloat t.tail).map (fun q => -q) else pyUFloat t

/-- `str.strip()` on the ASCII whitespace fragment. -/
def pyStrip (t : List Char) : List Char :=
  ((t.dropWhile isSpaceCh).reverse.dropWhile isSpaceCh).reverse

/-- Python's `needle in hay` substring test. -/
def containsStr (needle hay : List Char) : Bool :=
  hay.tails.any (fun t => needle.isPrefixOf t)

/-- One element of `rows`: the tuple
`[ts, status, symbol.strip(), float(pnl), float(cap), int(idx), int(total)]`. -/
structure TradeRecord where
  ts : String
  status : String
  symbol : String
  pnl : ℚ
  capital : ℚ
  idx : Nat
  total : Nat
deriving DecidableEq

/-- Result of processing one line of the loop body: no match (`continue`),
a parsed record (`rows.append`), or a `ValueError` raised by
`float`/`int` on a matched line (which aborts the whole run). -/
inductive LineResult where
  | skip : LineResult
  | record (r : TradeRecord) : LineResult
  | numError : LineResult
deriving DecidableEq

/-- The loop body for one line: search, destructure the groups, classify
the status by the substring test `'HIT' in status_tag`, and convert the
numeric tokens. -/
def parseLineR (s : List Char) : LineResult :=
  match matchLine s with
  | none => .skip
  | some caps =>
    match pyFloat (grp caps 4), pyFloat (grp caps 5) with
    | some p, some c =>
      .record { ts := ⟨grp caps 1⟩
              , status := if containsStr "HIT".data (grp caps 2) then "HIT" else "MISS"
              , symbol := ⟨pyStrip (grp caps 3)⟩
              , pnl := p
              , capital := c
              , idx := digitsToNat (grp caps 6)
              , total := digitsToNat (grp caps 7) }
    | _, _ => .numError

/-- The whole read loop: `rows = []`, then for each line append the
parsed record or skip; a numeric `ValueError` aborts the loop (and the
run) exceptionally. -/
def collectRows : List (List Char) → List TradeRecord → Except Unit (List TradeRecord)
  | [], acc => .ok acc
  | l :: ls, acc =>
    match parseLineR l with
    | .skip => collectRows ls acc
    | .record r => collectRows ls (acc ++ [r])
    | .numError => .error ()

/-- The six per-symbol dictionaries of the aggregation pass.  `cnt`,
`sum_p`, `hits`, `miss` are `defaultdict`s (absent key reads as 0) and
`max_p`, `min_p` are plain dicts (`none` models an absent key); `keys`
is the key list of `cnt` in insertion order. -/
structure AggState where
  keys : List String
  cnt : String → Nat
  sump : String → ℚ
  hits : String → Nat
  miss : String → Nat
  maxp : String → Option ℚ
  minp : String → Option ℚ

/-- The empty dictionaries. -/
def initAgg : AggState :=
  ⟨[], fun _ => 0, fun _ => 0, fun _ => 0, fun _ => 0, fun _ => none, fun _ => none⟩

/-- Pointwise dictionary update. -/
def upd {α : Type} (f : String → α) (s : String) (v : α) : String → α :=
  fun t => if t = s then v else f t

/-- One iteration of the aggregation loop body
(`cnt[sym]+=1; sum_p[sym]+=pnl; ...`), transcribed clause by clause. -/
def aggStep (st : AggState) (r : TradeRecord) : AggState :=
  let s := r.symbol
  { keys := if s ∈ st.keys then st.keys else st.keys ++ [s]
  , cnt := upd st.cnt s (st.cnt s + 1)
  , sump := upd st.sump s (st.sump s + r.pnl)
  , hits := if r.status = "HIT" then upd st.hits s (st.hits s + 1) else st.hits
  , miss := if r.status = "HIT" then st.miss else upd st.miss s (st.miss s + 1)
  , maxp := upd st.maxp s
      (some (match st.maxp s with
             | none => r.pnl
             | some m => if m < r.pnl then r.pnl else m))
  , minp := upd st.minp s
      (some (match st.minp s with
             | none => r.pnl
             | some m => if r.pnl < m then r.pnl else m)) }

/-- The aggregation pass over the collected rows. -/
def aggregate (rows : List TradeRecord) : AggState :=
  rows.foldl aggStep initAgg

/-- `round(q, 2)` as exact decimal rounding, half to even (CPython's
rounding mode), on the rational model of the accumulated values. -/
def round2 (q : ℚ) : ℚ :=
  let x := 100 * q
  let f : ℤ := Int.floor x
  let r := x - (f : ℚ)
  let n : ℤ :=
    if r < 1 / 2 then f
    else if 1 / 2 < r then f + 1
    else if 2 ∣ f then f else f + 1
  (n : ℚ) / 100

/-- One row of the summary table. -/
structure SummaryRow where
  symbol : String
  hits : Nat
  misses : Nat
  total : Nat
  winRate : ℚ
  avgPnl : ℚ
  sumPnl : ℚ
  maxPnl : ℚ
  minPnl : ℚ
deriving DecidableEq

/-- The summary row written for one symbol:
`tot=cnt[sym]; wr=100.0*hits[sym]/tot if tot else 0.0; avg=sum_p[sym]/tot if tot else 0.0`
then all rational fields rounded to two decimals at emission.  The
`max_p[sym]`/`min_p[sym]` dictionary reads are totalised with a default
of 0; the key is always present for any symbol of `cnt.keys()`
(established separately), so the default is never used. -/
def finalizeSym (st : AggState) (s : String) : SummaryRow :=
  let tot := st.cnt s
  let wr : ℚ := if tot ≠ 0 then 100 * (st.hits s : ℚ) / (tot : ℚ) else 0
  let avg : ℚ := if tot ≠ 0 then st.sump s / (tot : ℚ) else 0
  { symbol := s
  , hits := st.hits s
  , misses := st.miss s
  , total := tot
  , winRate := round2 wr
  , avgPnl := round2 avg
  , sumPnl := round2 (st.sump s)
  , maxPnl := round2 ((st.maxp s).getD 0)
  , minPnl := round2 ((st.minp s).getD 0) }

/-- The emission loop `for sym in sorted(cnt.keys()): w.writerow(...)`:
Python's `sorted` on strings is an ascending comparison sort for the
code-point lexicographic order, modelled by insertion sort over `≤`. -/
def summaryRows (st : AggState) : List SummaryRow :=
  (st.keys.insertionSort (· ≤ ·)).map (finalizeSym st)

/-- The running-maximum update of the aggregation loop body, as a function:
`if sym not in max_p or pnl > max_p[sym]: max_p[sym] = pnl`. -/
def mup (o : Option ℚ) (p : ℚ) : Option ℚ :=
  some (match o with
        | none => p
        | some m => if m < p then p else m)

/-- The running-minimum update of the aggregation loop body, as a function. -/
def mdn (o : Option ℚ) (p : ℚ) : Option ℚ :=
  some (match o with
        | none => p
        | some m => if p < m then p else m)

/-- The pnl values of the rows carrying symbol `s`, in row order. -/
def symPnls (rows : List TradeRecord) (s : String) : List ℚ :=
  (rows.filter (fun r => r.symbol == s)).map (fun r => r.pnl)

/-- The record produced for a line, if the line matches and its numeric
tokens convert. -/
def recOf (l : List Char) : Option TradeRecord :=
  match parseLineR l with
  | .record r => some r
  | _ => none

/-- Drop one leading minus sign. -/
def stripSign (t : List Char) : List Char :=
  if t.head? = some '-' then t.tail else t

/-- A numeric token (over the pattern's token alphabet of sign, digits
and dots) that CPython's `float` accepts: after the optional sign, only
digits and dots, at most one dot, and at least one digit. -/
def GoodFloatTok (t : List Char) : Prop :=
  (∀ c ∈ stripSign t, isDigitDot c = true) ∧
  (stripSign t).countP (fun c => c == '.') ≤ 1 ∧
  ∃ c ∈ stripSign t, isDigitCh c = true

instance (t : List Char) : Decidable (GoodFloatTok t) := by
  unfold GoodFloatTok; infer_instance

/-- The observable effects of the script, in program order. -/
inductive Effect where
  | mkOutDir : Effect
  | openInput : Effect
  | writePerTradeTable (rows : List TradeRecord) : Effect
  | writeSummaryTable (rows : List SummaryRow) : Effect
  | printPaths : Effect
deriving DecidableEq

/-- The effect trace of one run, transcribed from the statement order of
the script: `os.makedirs` first, then the input file is opened and read
completely; only afterwards is either output file opened and written.
`none` models a missing/unreadable input file: `open(log_file)` raises
and the run aborts right there, before any output file is touched; an
in-loop numeric `ValueError` likewise aborts before any output. -/
def programTrace (input : Option (List (List Char))) : List Effect :=
  [.mkOutDir, .openInput] ++
  match input with
  | none => []
  | some lines =>
    match collectRows lines [] with
    | .error _ => []
    | .ok rows =>
      [.writePerTradeTable rows,
       .writeSummaryTable (summaryRows (aggregate rows)),
       .printPaths]

/-- Does an effect write one of the two output tables? -/
def isTableWrite : Effect → Bool
  | .writePerTradeTable _ => true
  | .writeSummaryTable _ => true
  | _ => false

/-! ### Concrete inputs used by counterexamples and witnesses -/

/-- The first example line of the spec (§8.6). -/
def exLine1 : List Char :=
  "2024/01/01 09:00:00 SIM HIT: AAPL | PnL=$12.50 | Capital=$10012.50 | Trades: 1/10".data

/-- The second example line of the spec (§8.6). -/
def exLine2 : List Char :=
  "2024/01/01 09:01:00 SIM MISS: AAPL | PnL=$-5.00 | Capital=$10007.50 | Trades: 2/10".data

/-- The record parsed from `exLine1` (pnl 12.50, capital 10012.50); the
rationals are written in the shape `float` produces them. -/
def exRec1 : TradeRecord :=
  ⟨"2024/01/01 09:00:00", "HIT", "AAPL",
   ((12 : ℕ) : ℚ) + ((50 : ℕ) : ℚ) / (10 : ℚ) ^ (2 : ℕ),
   ((10012 : ℕ) : ℚ) + ((50 : ℕ) : ℚ) / (10 : ℚ) ^ (2 : ℕ), 1, 10⟩

/-- The record parsed from `exLine2` (pnl −5.00, capital 10007.50). -/
def exRec2 : TradeRecord :=
  ⟨"2024/01/01 09:01:00", "MISS", "AAPL",
   -(((5 : ℕ) : ℚ) + ((0 : ℕ) : ℚ) / (10 : ℚ) ^ (2 : ℕ)),
   ((10007 : ℕ) : ℚ) + ((50 : ℕ) : ℚ) / (10 : ℚ) ^ (2 : ℕ), 2, 10⟩

/-- A line that matches `line_re` (the class `[0-9.]+` admits repeated
dots) but whose PnL token `1.2.3` is rejected by `float`. -/
def badNumLine : List Char :=
  "2024/01/01 09:00:00 SIM HIT: AAPL | PnL=$1.2.3 | Capital=$10012.50 | Trades: 1/10".data

/-- A line whose symbol field between the status marker and the next `|`
consists entirely of whitespace. -/
def wsSymLine : List Char :=
  "2024/01/01 09:01:00 SIM MISS:    | PnL=$-5.00 | Capital=$10007.50 | Trades: 2/10".data

/-- The record parsed from `wsSymLine`: its symbol is the empty string. -/
def wsSymRec : TradeRecord :=
  ⟨"2024/01/01 09:01:00", "MISS", "",
   -(((5 : ℕ) : ℚ) + ((0 : ℕ) : ℚ) / (10 : ℚ) ^ (2 : ℕ)),
   ((10007 : ℕ) : ℚ) + ((50 : ℕ) : ℚ) / (10 : ℚ) ^ (2 : ℕ), 2, 10⟩

/-- A small input file: the two spec example lines, a non-matching junk
line, and a line disqualified only by a leading space. -/
def exLines : List (List Char) :=
  [exLine1, "junk line".data, exLine2,
   " 2024/01/01 09:00:00 SIM HIT: AAPL | PnL=$12.50 | Capital=$10012.50 | Trades: 1/10".data]

/-! ### Characterisation of the aggregation fold -/

theorem foldl_cnt (rows : List TradeRecord) :
    ∀ (st : AggState) (s : String),
      (rows.foldl aggStep st).cnt s = st.cnt s + rows.countP (fun r => r.symbol == s) := by
  induction rows with
  | nil => intro st s; simp
  | cons r rs ih =>
    intro st s
    rw [List.foldl_cons, ih, List.countP_cons]
    by_cases h : s = r.symbol
    · subst h; simp [aggStep, upd]; omega
    · have hb : (r.symbol == s) = false := by
        simp only [beq_eq_false_iff_ne]; exact fun e => h e.symm
      simp [aggStep, upd, h, hb]

theorem foldl_hits (rows : List TradeRecord) :
    ∀ (st : AggState) (s : String),
      (rows.foldl aggStep st).hits s =
        st.hits s + rows.countP (fun r => r.symbol == s && r.status == "HIT") := by
  induction rows with
  | nil => intro st s; simp
  | cons r rs ih =>
    intro st s
    rw [List.foldl_cons, ih, List.countP_cons]
    by_cases hst : r.status = "HIT" <;> by_cases h : s = r.symbol
    · subst h; simp [aggStep, upd, hst]; omega
    · have hb : (r.symbol == s) = false := by
        simp only [beq_eq_false_iff_ne]; exact fun e => h e.symm
      simp [aggStep, upd, h, hb, hst]
    · subst h; simp [aggStep, upd, hst]
    · have hb : (r.symbol == s) = false := by
        simp only [beq_eq_false_iff_ne]; exact fun e => h e.symm
      simp [aggStep, upd, h, hb, hst]

theorem foldl_miss (rows : List TradeRecord) :
    ∀ (st : AggState) (s : String),
      (rows.foldl aggStep st).miss s =
        st.miss s + rows.countP (fun r => r.symbol == s && !(r.status == "HIT")) := by
  induction rows with
  | nil => intro st s; simp
  | cons r rs ih =>
    intro st s
    rw [List.foldl_cons, ih, List.countP_cons]
    by_cases hst : r.status = "HIT" <;> by_cases h : s = r.symbol
    · subst h; simp [aggStep, upd, hst]
    · have hb : (r.symbol == s) = false := by
        simp only [beq_eq_false_iff_ne]; exact fun e => h e.symm
      simp [aggStep, upd, h, hb, hst]
    · subst h; simp [aggStep, upd, hst]; omega
    · have hb : (r.symbol == s) = false := by
        simp only [beq_eq_false_iff_ne]; exact fun e => h e.symm
      simp [aggStep, upd, h, hb, hst]

theorem foldl_sump (rows : List TradeRecord) :
    ∀ (st : AggState) (s : String),
      (rows.foldl aggStep st).sump s = st.sump s + (symPnls rows s).sum := by
  induction rows with
  | nil => intro st s; simp [symPnls]
  | cons r rs ih =>
    intro st s
    rw [List.foldl_cons, ih]
    by_cases h : s = r.symbol
    · subst h
      simp only [symPnls, List.filter_cons, beq_self_eq_true, if_pos, List.map_cons,
        List.sum_cons, aggStep, upd, if_pos rfl]
      ring
    · have hb : (r.symbol == s) = false := by
        simp only [beq_eq_false_iff_ne]; exact fun e => h e.symm
      simp [symPnls, List.filter_cons, hb, aggStep, upd, h]

theorem foldl_maxp (rows : List TradeRecord) :
    ∀ (st : AggState) (s : String),
      (rows.foldl aggStep st).maxp s = (symPnls rows s).foldl mup (st.maxp s) := by
  induction rows with
  | nil => intro st s; simp [symPnls]
  | cons r rs ih =>
    intro st s
    rw [List.foldl_cons, ih]
    by_cases h : s = r.symbol
    · subst h
      simp only [symPnls, List.filter_cons, beq_self_eq_true, if_pos, List.map_cons,
        List.foldl_cons]
      have : (aggStep st r).maxp r.symbol = mup (st.maxp r.symbol) r.pnl := by
        simp [aggStep, upd, mup]
      rw [this]
    · have hb : (r.symbol == s) = false := by
        simp only [beq_eq_false_iff_ne]; exact fun e => h e.symm
      have : (aggStep st r).maxp s = st.maxp s := by simp [aggStep, upd, h]
      simp [symPnls, List.filter_cons, hb, this]

theorem foldl_minp (rows : List TradeRecord) :
    ∀ (st : AggState) (s : String),
      (rows.foldl aggStep st).minp s = (symPnls rows s).foldl mdn (st.minp s) := by
  induction rows with
  | nil => intro st s; simp [symPnls]
  | cons r rs ih =>
    intro st s
    rw [List.foldl_cons, ih]
    by_cases h : s = r.symbol
    · subst h
      simp only [symPnls, List.filter_cons, beq_self_eq_true, if_pos, List.map_cons,
        List.foldl_cons]
      have : (aggStep st r).minp r.symbol = mdn (st.minp r.symbol) r.pnl := by
        simp [aggStep, upd, mdn]
      rw [this]
    · have hb : (r.symbol == s) = false := by
        simp only [beq_eq_false_iff_ne]; exact fun e => h e.symm
      have : (aggStep st r).minp s = st.minp s := by simp [aggStep, upd, h]
      simp [symPnls, List.filter_cons, hb, this]

theorem foldl_keys_mem (rows : List TradeRecord) :
    ∀ (st : AggState) (s : String),
      (s ∈ (rows.foldl aggStep st).keys ↔ s ∈ st.keys ∨ s ∈ rows.map (fun r => r.symbol)) := by
  induction rows with
  | nil => intro st s; simp
  | cons r rs ih =>
    intro st s
    rw [List.foldl_cons, ih]
    have hstep : s ∈ (aggStep st r).keys ↔ s ∈ st.keys ∨ s = r.symbol := by
      by_cases hk : r.symbol ∈ st.keys
      · simp only [aggStep, if_pos hk]
        constructor
        · exact Or.inl
        · rintro (h | rfl)
          · exact h
          · exact hk
      · simp [aggStep, if_neg hk]
    rw [hstep, List.map_cons, List.mem_cons]
    tauto

theorem foldl_keys_nodup (rows : List TradeRecord) :
    ∀ (st : AggState), st.keys.Nodup → (rows.foldl aggStep st).keys.Nodup := by
  induction rows with
  | nil => intro st h; simpa using h
  | cons r rs ih =>
    intro st h
    rw [List.foldl_cons]
    apply ih
    by_cases hk : r.symbol ∈ st.keys
    · simpa [aggStep, if_pos hk] using h
    · simp [aggStep, if_neg hk, List.nodup_append, h, hk]

/-! ### The running max/min updates compute list maxima/minima -/

theorem mup_some (m p : ℚ) : mup (some m) p = some (max m p) := by
  simp only [mup]
  rcases lt_trichotomy m p with h | rfl | h
  · rw [if_pos h, max_eq_right h.le]
  · simp
  · rw [if_neg (not_lt_of_gt h), max_eq_left h.le]

theorem mdn_some (m p : ℚ) : mdn (some m) p = some (min m p) := by
  simp only [mdn]
  rcases lt_trichotomy p m with h | rfl | h
  · rw [if_pos h, min_eq_right h.le]
  · simp
  · rw [if_neg (not_lt_of_gt h), min_eq_left h.le]

theorem foldl_mup_some (l : List ℚ) :
    ∀ m : ℚ, l.foldl mup (some m) = some (l.foldl max m) := by
  induction l with
  | nil => intro m; rfl
  | cons x xs ih => intro m; rw [List.foldl_cons, List.foldl_cons, mup_some, ih]

theorem foldl_mdn_some (l : List ℚ) :
    ∀ m : ℚ, l.foldl mdn (some m) = some (l.foldl min m) := by
  induction l with
  | nil => intro m; rfl
  | cons x xs ih => intro m; rw [List.foldl_cons, List.foldl_cons, mdn_some, ih]

theorem foldl_mup_none (l : List ℚ) : l.foldl mup none = l.max? := by
  cases l with
  | nil => rfl
  | cons x xs =>
    rw [List.foldl_cons]
    have h0 : mup none x = some x := rfl
    rw [h0, foldl_mup_some]
    rfl

theorem foldl_mdn_none (l : List ℚ) : l.foldl mdn none = l.min? := by
  cases l with
  | nil => rfl
  | cons x xs =>
    rw [List.foldl_cons]
    have h0 : mdn none x = some x := rfl
    rw [h0, foldl_mdn_some]
    rfl

theorem foldl_max_mem (xs : List ℚ) : ∀ m : ℚ, xs.foldl max m ∈ m :: xs := by
  induction xs with
  | nil => intro m; simp
  | cons x xs ih =>
    intro m
    rw [List.foldl_cons]
    rcases List.mem_cons.1 (ih (max m x)) with he | hmem
    · rcases max_choice m x with h | h
      · rw [he, h]; exact List.mem_cons_self _ _
      · rw [he, h]; exact List.mem_cons_of_mem _ (List.mem_cons_self _ _)
    · exact List.mem_cons_of_mem _ (List.mem_cons_of_mem _ hmem)

theorem le_foldl_max (xs : List ℚ) : ∀ m : ℚ, m ≤ xs.foldl max m := by
  induction xs with
  | nil => intro m; simp
  | cons x xs ih =>
    intro m
    rw [List.foldl_cons]
    exact le_trans (le_max_left m x) (ih (max m x))

theorem mem_le_foldl_max (xs : List ℚ) :
    ∀ (m x : ℚ), x ∈ xs → x ≤ xs.foldl max m := by
  induction xs with
  | nil => intro m x h; simp at h
  | cons y ys ih =>
    intro m x h
    rw [List.foldl_cons]
    rcases List.mem_cons.1 h with rfl | h
    · exact le_trans (le_max_right m x) (le_foldl_max ys (max m x))
    · exact ih (max m y) x h

theorem foldl_min_mem (xs : List ℚ) : ∀ m : ℚ, xs.foldl min m ∈ m :: xs := by
  induction xs with
  | nil => intro m; simp
  | cons x xs ih =>
    intro m
    rw [List.foldl_cons]
    rcases List.mem_cons.1 (ih (min m x)) with he | hmem
    · rcases min_choice m x with h | h
      · rw [he, h]; exact List.mem_cons_self _ _
      · rw [he, h]; exact List.mem_cons_of_mem _ (List.mem_cons_self _ _)
    · exact List.mem_cons_of_mem _ (List.mem_cons_of_mem _ hmem)

theorem foldl_min_le (xs : List ℚ) : ∀ m : ℚ, xs.foldl min m ≤ m := by
  induction xs with
  | nil => intro m; simp
  | cons x xs ih =>
    intro m
    rw [List.foldl_cons]
    exact le_trans (ih (min m x)) (min_le_left m x)

theorem foldl_min_le_mem (xs : List ℚ) :
    ∀ (m x : ℚ), x ∈ xs → xs.foldl min m ≤ x := by
  induction xs with
  | nil => intro m x h; simp at h
  | cons y ys ih =>
    intro m x h
    rw [List.foldl_cons]
    rcases List.mem_cons.1 h with rfl | h
    · exact le_trans (foldl_min_le ys (min m x)) (min_le_right m x)
    · exact ih (min m y) x h

/-! ### Folds of right-commutative operations are permutation invariant -/

theorem foldl_comm_perm {α β : Type} (f : β → α → β)
    (hf : ∀ (b : β) (a₁ a₂ : α), f (f b a₁) a₂ = f (f b a₂) a₁) :
    ∀ {l₁ l₂ : List α}, l₁.Perm l₂ → ∀ b : β, l₁.foldl f b = l₂.foldl f b := by
  intro l₁ l₂ p
  induction p with
  | nil => intro b; rfl
  | cons x _ ih => intro b; rw [List.foldl_cons, List.foldl_cons, ih]
  | swap x y l => intro b; rw [List.foldl_cons, List.foldl_cons, List.foldl_cons,
      List.foldl_cons, hf]
  | trans _ _ ih₁ ih₂ => intro b; rw [ih₁, ih₂]

theorem mup_comm (o : Option ℚ) (p q : ℚ) : mup (mup o p) q = mup (mup o q) p := by
  cases o with
  | none =>
    have h1 : mup none p = some p := rfl
    have h2 : mup none q = some q := rfl
    rw [h1, h2, mup_some, mup_some, max_comm]
  | some m =>
    rw [mup_some, mup_some, mup_some, mup_some, max_assoc, max_assoc, max_comm p q]

theorem mdn_comm (o : Option ℚ) (p q : ℚ) : mdn (mdn o p) q = mdn (mdn o q) p := by
  cases o with
  | none =>
    have h1 : mdn none p = some p := rfl
    have h2 : mdn none q = some q := rfl
    rw [h1, h2, mdn_some, mdn_some, min_comm]
  | some m =>
    rw [mdn_some, mdn_some, mdn_some, mdn_some, min_assoc, min_assoc, min_comm p q]

/-! ### The aggregate of a row list, field by field -/

theorem agg_cnt (rows : List TradeRecord) (s : String) :
    (aggregate rows).cnt s = rows.countP (fun r => r.symbol == s) := by
  rw [aggregate, foldl_cnt]; simp [initAgg]

theorem agg_hits (rows : List TradeRecord) (s : String) :
    (aggregate rows).hits s = rows.countP (fun r => r.symbol == s && r.status == "HIT") := by
  rw [aggregate, foldl_hits]; simp [initAgg]

theorem agg_miss (rows : List TradeRecord) (s : String) :
    (aggregate rows).miss s = rows.countP (fun r => r.symbol == s && !(r.status == "HIT")) := by
  rw [aggregate, foldl_miss]; simp [initAgg]

theorem agg_sump (rows : List TradeRecord) (s : String) :
    (aggregate rows).sump s = (symPnls rows s).sum := by
  rw [aggregate, foldl_sump]; simp [initAgg]

theorem agg_maxp_fold (rows : List TradeRecord) (s : String) :
    (aggregate rows).maxp s = (symPnls rows s).foldl mup none := by
  rw [aggregate, foldl_maxp]; rfl

theorem agg_minp_fold (rows : List TradeRecord) (s : String) :
    (aggregate rows).minp s = (symPnls rows s).foldl mdn none := by
  rw [aggregate, foldl_minp]; rfl

theorem agg_maxp (rows : List TradeRecord) (s : String) :
    (aggregate rows).maxp s = (symPnls rows s).max? := by
  rw [agg_maxp_fold, foldl_mup_none]

theorem agg_minp (rows : List TradeRecord) (s : String) :
    (aggregate rows).minp s = (symPnls rows s).min? := by
  rw [agg_minp_fold, foldl_mdn_none]

theorem agg_keys_mem (rows : List TradeRecord) (s : String) :
    s ∈ (aggregate rows).keys ↔ s ∈ rows.map (fun r => r.symbol) := by
  rw [aggregate, foldl_keys_mem]; simp [initAgg]

theorem agg_keys_nodup (rows : List TradeRecord) : (aggregate rows).keys.Nodup :=
  foldl_keys_nodup rows initAgg (by simp [initAgg])

theorem countP_split (l : List TradeRecord) (a b : TradeRecord → Bool) :
    l.countP (fun r => a r && b r) + l.countP (fun r => a r && !(b r)) = l.countP a := by
  induction l with
  | nil => rfl
  | cons r rs ih =>
    rw [List.countP_cons, List.countP_cons, List.countP_cons]
    cases ha : a r <;> cases hb : b r <;> simp [ha, hb] <;> omega

theorem cnt_ne_zero_of_mem_keys (rows : List TradeRecord) (s : String)
    (h : s ∈ (aggregate rows).keys) : (aggregate rows).cnt s ≠ 0 := by
  rw [agg_keys_mem] at h
  obtain ⟨r, hr, hsym⟩ := List.mem_map.1 h
  rw [agg_cnt]
  have : 0 < rows.countP (fun r => r.symbol == s) :=
    List.countP_pos_iff.2 ⟨r, hr, by simp [hsym]⟩
  omega

theorem symPnls_ne_nil_of_mem_keys (rows : List TradeRecord) (s : String)
    (h : s ∈ (aggregate rows).keys) : symPnls rows s ≠ [] := by
  rw [agg_keys_mem] at h
  obtain ⟨r, hr, hsym⟩ := List.mem_map.1 h
  have : r.pnl ∈ symPnls rows s := by
    apply List.mem_map_of_mem
    exact List.mem_filter.2 ⟨hr, by simp [hsym]⟩
  intro he
  rw [he] at this
  exact List.not_mem_nil _ this

/-! ### Claims about the aggregation -/

/-- C2: folding any permutation of a sequence of TradeRecords through the
aggregator yields the same final per-symbol aggregate values — count,
hit count, miss count, pnl sum, running max and running min — as folding
the original sequence. -/
theorem c2_aggregation_is_permutation_invariant (l₁ l₂ : List TradeRecord)
    (h : l₁.Perm l₂) :
    (aggregate l₁).cnt = (aggregate l₂).cnt ∧
    (aggregate l₁).hits = (aggregate l₂).hits ∧
    (aggregate l₁).miss = (aggregate l₂).miss ∧
    (aggregate l₁).sump = (aggregate l₂).sump ∧
    (aggregate l₁).maxp = (aggregate l₂).maxp ∧
    (aggregate l₁).minp = (aggregate l₂).minp := by
  have hp : ∀ s, (symPnls l₁ s).Perm (symPnls l₂ s) := fun s => (h.filter _).map _
  refine ⟨funext fun s => ?_, funext fun s => ?_, funext fun s => ?_,
          funext fun s => ?_, funext fun s => ?_, funext fun s => ?_⟩
  · rw [agg_cnt, agg_cnt, h.countP_eq]
  · rw [agg_hits, agg_hits, h.countP_eq]
  · rw [agg_miss, agg_miss, h.countP_eq]
  · rw [agg_sump, agg_sump, (hp s).sum_eq]
  · rw [agg_maxp_fold, agg_maxp_fold, foldl_comm_perm mup mup_comm (hp s)]
  · rw [agg_minp_fold, agg_minp_fold, foldl_comm_perm mdn mdn_comm (hp s)]

theorem c2_aggregation_is_permutation_invariant_witness :
    (aggregate [exRec2, exRec1]).cnt = (aggregate [exRec1, exRec2]).cnt ∧
    (aggregate [exRec2, exRec1]).hits = (aggregate [exRec1, exRec2]).hits ∧
    (aggregate [exRec2, exRec1]).miss = (aggregate [exRec1, exRec2]).miss ∧
    (aggregate [exRec2, exRec1]).sump = (aggregate [exRec1, exRec2]).sump ∧
    (aggregate [exRec2, exRec1]).maxp = (aggregate [exRec1, exRec2]).maxp ∧
    (aggregate [exRec2, exRec1]).minp = (aggregate [exRec1, exRec2]).minp :=
  c2_aggregation_is_permutation_invariant [exRec2, exRec1] [exRec1, exRec2]
    (List.Perm.swap exRec1 exRec2 [])

/-- C3: for every row of the summary table, hits + misses = total, and
total is the number of per-trade rows carrying that row's symbol. -/
theorem c3_hits_plus_misses_eq_total (rows : List TradeRecord) (sr : SummaryRow)
    (h : sr ∈ summaryRows (aggregate rows)) :
    sr.hits + sr.misses = sr.total ∧
    sr.total = rows.countP (fun r => r.symbol == sr.symbol) := by
  obtain ⟨s, _, rfl⟩ := List.mem_map.1 h
  constructor
  · simp only [finalizeSym]
    rw [agg_hits, agg_miss, agg_cnt]
    exact countP_split rows _ _
  · simp only [finalizeSym]
    rw [agg_cnt]

theorem c3_hits_plus_misses_eq_total_witness :
    (finalizeSym (aggregate [exRec1, exRec2]) "AAPL").hits
        + (finalizeSym (aggregate [exRec1, exRec2]) "AAPL").misses
      = (finalizeSym (aggregate [exRec1, exRec2]) "AAPL").total ∧
    (finalizeSym (aggregate [exRec1, exRec2]) "AAPL").total
      = [exRec1, exRec2].countP
          (fun r => r.symbol == (finalizeSym (aggregate [exRec1, exRec2]) "AAPL").symbol) :=
  c3_hits_plus_misses_eq_total [exRec1, exRec2]
    (finalizeSym (aggregate [exRec1, exRec2]) "AAPL") (List.mem_singleton.mpr rfl)

/-- C4: every emitted summary row has a nonzero total; its win rate is
100 × hits / total and its average pnl is (exact pnl sum) / total, both
rounded to two decimals only at emission; the emitted pnl sum is the
rounding of the exact, full-precision sum; and for an absent symbol
(count 0) the defensive finalisation yields 0 for both derived fields. -/
theorem c4_finalization_formulas (rows : List TradeRecord) (sr : SummaryRow)
    (h : sr ∈ summaryRows (aggregate rows)) :
    sr.total ≠ 0 ∧
    sr.winRate = round2 (100 * (sr.hits : ℚ) / (sr.total : ℚ)) ∧
    sr.avgPnl = round2 ((symPnls rows sr.symbol).sum / (sr.total : ℚ)) ∧
    sr.sumPnl = round2 ((symPnls rows sr.symbol).sum) ∧
    (∀ s, (aggregate rows).cnt s = 0 →
      (finalizeSym (aggregate rows) s).winRate = 0 ∧
      (finalizeSym (aggregate rows) s).avgPnl = 0) := by
  obtain ⟨s, hs, rfl⟩ := List.mem_map.1 h
  rw [List.mem_insertionSort] at hs
  have htot : (aggregate rows).cnt s ≠ 0 := cnt_ne_zero_of_mem_keys rows s hs
  refine ⟨?_, ?_, ?_, ?_, ?_⟩
  · simpa only [finalizeSym] using htot
  · simp only [finalizeSym, if_pos htot]
  · simp only [finalizeSym, if_pos htot]
    rw [agg_sump]
  · simp only [finalizeSym]
    rw [agg_sump]
  · intro s' hz
    have hr2 : round2 0 = 0 := by norm_num [round2]
    constructor
    · simp only [finalizeSym, hz, ne_eq, not_true_eq_false, if_false, hr2]
    · simp only [finalizeSym, hz, ne_eq, not_true_eq_false, if_false, hr2]

theorem c4_finalization_formulas_witness :
    (finalizeSym (aggregate [exRec1, exRec2]) "AAPL").total ≠ 0 ∧
    (finalizeSym (aggregate [exRec1, exRec2]) "AAPL").winRate
      = round2 (100 * ((finalizeSym (aggregate [exRec1, exRec2]) "AAPL").hits : ℚ)
          / ((finalizeSym (aggregate [exRec1, exRec2]) "AAPL").total : ℚ)) ∧
    (finalizeSym (aggregate [exRec1, exRec2]) "AAPL").avgPnl
      = round2 ((symPnls [exRec1, exRec2]
            (finalizeSym (aggregate [exRec1, exRec2]) "AAPL").symbol).sum
          / ((finalizeSym (aggregate [exRec1, exRec2]) "AAPL").total : ℚ)) ∧
    (finalizeSym (aggregate [exRec1, exRec2]) "AAPL").sumPnl
      = round2 ((symPnls [exRec1, exRec2]
            (finalizeSym (aggregate [exRec1, exRec2]) "AAPL").symbol).sum) ∧
    (∀ s, (aggregate [exRec1, exRec2]).cnt s = 0 →
      (finalizeSym (aggregate [exRec1, exRec2]) s).winRate = 0 ∧
      (finalizeSym (aggregate [exRec1, exRec2]) s).avgPnl = 0) :=
  c4_finalization_formulas [exRec1, exRec2]
    (finalizeSym (aggregate [exRec1, exRec2]) "AAPL") (List.mem_singleton.mpr rfl)

/-- C6: for every emitted summary row there are values mx and mn — the
true maximum and minimum of the pnl values of that symbol's rows, and
themselves pnl values of such rows (the extrema are initialised from the
first record, never from a sentinel) — such that the running max/min
dictionaries hold exactly some mx / some mn and the emitted fields are
their roundings to two decimals. -/
theorem c6_extrema_are_true_extrema (rows : List TradeRecord) (sr : SummaryRow)
    (h : sr ∈ summaryRows (aggregate rows)) :
    ∃ mx mn : ℚ,
      (aggregate rows).maxp sr.symbol = some mx ∧
      (aggregate rows).minp sr.symbol = some mn ∧
      mx ∈ symPnls rows sr.symbol ∧ (∀ x ∈ symPnls rows sr.symbol, x ≤ mx) ∧
      mn ∈ symPnls rows sr.symbol ∧ (∀ x ∈ symPnls rows sr.symbol, mn ≤ x) ∧
      sr.maxPnl = round2 mx ∧ sr.minPnl = round2 mn := by
  obtain ⟨s, hs, rfl⟩ := List.mem_map.1 h
  rw [List.mem_insertionSort] at hs
  have hne : symPnls rows s ≠ [] := symPnls_ne_nil_of_mem_keys rows s hs
  have hsym : (finalizeSym (aggregate rows) s).symbol = s := rfl
  rw [hsym]
  cases hp : symPnls rows s with
  | nil => exact absurd hp hne
  | cons x xs =>
    have hmax : (aggregate rows).maxp s = some (xs.foldl max x) := by
      rw [agg_maxp_fold, hp, List.foldl_cons]
      have h0 : mup none x = some x := rfl
      rw [h0, foldl_mup_some]
    have hmin : (aggregate rows).minp s = some (xs.foldl min x) := by
      rw [agg_minp_fold, hp, List.foldl_cons]
      have h0 : mdn none x = some x := rfl
      rw [h0, foldl_mdn_some]
    refine ⟨xs.foldl max x, xs.foldl min x, hmax, hmin, ?_, ?_, ?_, ?_, ?_, ?_⟩
    · exact foldl_max_mem xs x
    · intro y hy
      rcases List.mem_cons.1 hy with rfl | hy
      · exact le_foldl_max xs y
      · exact mem_le_foldl_max xs x y hy
    · exact foldl_min_mem xs x
    · intro y hy
      rcases List.mem_cons.1 hy with rfl | hy
      · exact foldl_min_le xs y
      · exact foldl_min_le_mem xs x y hy
    · simp only [finalizeSym, hmax, Option.getD_some]
    · simp only [finalizeSym, hmin, Option.getD_some]

theorem c6_extrema_are_true_extrema_witness :
    ∃ mx mn : ℚ,
      (aggregate [exRec1, exRec2]).maxp
          (finalizeSym (aggregate [exRec1, exRec2]) "AAPL").symbol = some mx ∧
      (aggregate [exRec1, exRec2]).minp
          (finalizeSym (aggregate [exRec1, exRec2]) "AAPL").symbol = some mn ∧
      mx ∈ symPnls [exRec1, exRec2]
          (finalizeSym (aggregate [exRec1, exRec2]) "AAPL").symbol ∧
      (∀ x ∈ symPnls [exRec1, exRec2]
          (finalizeSym (aggregate [exRec1, exRec2]) "AAPL").symbol, x ≤ mx) ∧
      mn ∈ symPnls [exRec1, exRec2]
          (finalizeSym (aggregate [exRec1, exRec2]) "AAPL").symbol ∧
      (∀ x ∈ symPnls [exRec1, exRec2]
          (finalizeSym (aggregate [exRec1, exRec2]) "AAPL").symbol, mn ≤ x) ∧
      (finalizeSym (aggregate [exRec1, exRec2]) "AAPL").maxPnl = round2 mx ∧
      (finalizeSym (aggregate [exRec1, exRec2]) "AAPL").minPnl = round2 mn :=
  c6_extrema_are_true_extrema [exRec1, exRec2]
    (finalizeSym (aggregate [exRec1, exRec2]) "AAPL") (List.mem_singleton.mpr rfl)

/-- C7: the summary table's symbols are strictly increasing in the
code-point lexicographic order (hence there is exactly one row per
symbol), and a symbol has a summary row exactly when some parsed record
carries it. -/
theorem c7_summary_sorted_and_keyed_by_distinct_symbols (rows : List TradeRecord) :
    List.Sorted (· < ·) ((summaryRows (aggregate rows)).map (fun sr => sr.symbol)) ∧
    ∀ s, (∃ sr ∈ summaryRows (aggregate rows), sr.symbol = s) ↔
         ∃ r ∈ rows, r.symbol = s := by
  have hmap : (summaryRows (aggregate rows)).map (fun sr => sr.symbol)
      = (aggregate rows).keys.insertionSort (· ≤ ·) := by
    rw [summaryRows, List.map_map]
    have : ((fun sr => sr.symbol) ∘ finalizeSym (aggregate rows))
        = (id : String → String) := rfl
    rw [this, List.map_id]
  constructor
  · rw [hmap]
    exact (List.sorted_insertionSort (· ≤ ·) _).lt_of_le
      ((List.perm_insertionSort (· ≤ ·) _).nodup_iff.2 (agg_keys_nodup rows))
  · intro s
    have hmem : (∃ sr ∈ summaryRows (aggregate rows), sr.symbol = s) ↔
        s ∈ (summaryRows (aggregate rows)).map (fun sr => sr.symbol) := by
      rw [List.mem_map]
    rw [hmem, hmap, List.mem_insertionSort, agg_keys_mem, List.mem_map]

/-! ### Claims about the whole-run behaviour -/

/-- C8: when the input file is missing or unreadable, the run aborts at
the point the input is opened: the effect trace stops right after
`openInput`, so neither output table is written; likewise, an abort
inside the read loop writes no table. -/
theorem c8_missing_input_writes_no_output :
    programTrace none = [Effect.mkOutDir, Effect.openInput] ∧
    (programTrace none).filter isTableWrite = [] ∧
    (∀ lines, collectRows lines [] = Except.error () →
      (programTrace (some lines)).filter isTableWrite = []) := by
  refine ⟨rfl, rfl, fun lines h => ?_⟩
  simp only [programTrace, h]
  rfl

theorem c8_missing_input_writes_no_output_witness :
    (programTrace (some [badNumLine])).filter isTableWrite = [] :=
  c8_missing_input_writes_no_output.2.2 [badNumLine] rfl

/-- C10: a line whose symbol field between the status marker and the
next `|` is all whitespace still yields a TradeRecord; its symbol strips
to the empty string, which becomes an aggregation key like any other. -/
theorem c10_whitespace_symbol_becomes_empty_key :
    parseLineR wsSymLine = .record wsSymRec ∧
    wsSymRec.symbol = "" ∧
    "" ∈ (aggregate [wsSymRec]).keys := by
  refine ⟨rfl, rfl, ?_⟩
  rw [agg_keys_mem]
  exact List.mem_map.2 ⟨wsSymRec, List.mem_singleton.mpr rfl, rfl⟩

/-- C1 counterexample: the line `badNumLine` matches the composite
pattern (its PnL token `1.2.3` is admitted by the class `[0-9.]+`), yet
its numeric conversion fails, aborting the run — so the float-parse
error branch is reachable from a matched line. -/
theorem c1_counterexample_matched_line_aborts :
    (matchLine badNumLine).isSome = true ∧ parseLineR badNumLine = .numError :=
  ⟨rfl, rfl⟩

/-! ### Claim C5: the per-trade table -/

theorem collect_ok_eq (ls : List (List Char)) :
    ∀ (acc rows : List TradeRecord), collectRows ls acc = .ok rows →
      rows = acc ++ ls.filterMap recOf := by
  induction ls with
  | nil =>
    intro acc rows h
    simp only [collectRows, Except.ok.injEq] at h
    simp [h]
  | cons l ls ih =>
    intro acc rows h
    cases hp : parseLineR l with
    | skip =>
      simp only [collectRows, hp] at h
      have hr : recOf l = none := by simp only [recOf, hp]
      rw [ih acc rows h, List.filterMap_cons, hr]
    | record r =>
      simp only [collectRows, hp] at h
      have hr : recOf l = some r := by simp only [recOf, hp]
      rw [ih (acc ++ [r]) rows h, List.filterMap_cons, hr, List.append_assoc,
        List.singleton_append]
    | numError =>
      simp only [collectRows, hp] at h
      exact absurd h (by simp)

theorem collect_ok_no_err (ls : List (List Char)) :
    ∀ (acc rows : List TradeRecord), collectRows ls acc = .ok rows →
      ∀ l ∈ ls, parseLineR l ≠ .numError := by
  induction ls with
  | nil => intro acc rows _ l hl; exact absurd hl (List.not_mem_nil l)
  | cons l' ls ih =>
    intro acc rows h l hl
    cases hp : parseLineR l' with
    | skip =>
      simp only [collectRows, hp] at h
      rcases List.mem_cons.1 hl with rfl | hl
      · rw [hp]; exact fun he => by cases he
      · exact ih acc rows h l hl
    | record r =>
      simp only [collectRows, hp] at h
      rcases List.mem_cons.1 hl with rfl | hl
      · rw [hp]; exact fun he => by cases he
      · exact ih (acc ++ [r]) rows h l hl
    | numError =>
      simp only [collectRows, hp] at h
      exact absurd h (by simp)

theorem match_isSome_iff_recOf (l : List Char) (h : parseLineR l ≠ .numError) :
    (matchLine l).isSome = (recOf l).isSome := by
  cases hm : matchLine l with
  | none => simp only [recOf, parseLineR, hm]; rfl
  | some caps =>
    simp only [recOf, parseLineR, hm] at h ⊢
    cases h4 : pyFloat (grp caps 4) with
    | none => exact absurd (by rw [h4]) h
    | some p =>
      cases h5 : pyFloat (grp caps 5) with
      | none => exact absurd (by rw [h4, h5]) h
      | some c => rfl

theorem length_filterMap_eq_countP {α β : Type} (f : α → Option β) (l : List α) :
    (l.filterMap f).length = l.countP (fun x => (f x).isSome) := by
  induction l with
  | nil => rfl
  | cons x xs ih =>
    rw [List.filterMap_cons, List.countP_cons]
    cases hx : f x with
    | none => simp [ih]
    | some y => simp [ih]

/-- C5: a successful run's per-trade rows are exactly the records of the
matching lines, in log order (one row per matching line, none for a
skipped line); in particular the row count equals the number of lines
the pattern matches. -/
theorem c5_per_trade_rows_in_log_order (lines : List (List Char))
    (rows : List TradeRecord) (h : collectRows lines [] = .ok rows) :
    rows = lines.filterMap recOf ∧
    rows.length = lines.countP (fun l => (matchLine l).isSome) := by
  have h1 : rows = [] ++ lines.filterMap recOf := collect_ok_eq lines [] rows h
  rw [List.nil_append] at h1
  refine ⟨h1, ?_⟩
  rw [h1, length_filterMap_eq_countP]
  apply List.countP_congr
  intro l hl
  rw [match_isSome_iff_recOf l (collect_ok_no_err lines [] rows h l hl)]

theorem c5_per_trade_rows_in_log_order_witness :
    ([exRec1, exRec2] : List TradeRecord) = exLines.filterMap recOf ∧
    ([exRec1, exRec2] : List TradeRecord).length
      = exLines.countP (fun l => (matchLine l).isSome) :=
  c5_per_trade_rows_in_log_order exLines [exRec1, exRec2] rfl

/-! ### Claim C9: the match is anchored at the first character -/

/-- The elements of `line_re` after the timestamp group and its
trailing space. -/
def lineReTail : List Re :=
  [.lazyStar isNotNL,
   .galt 2 "HIT:".data "MISS:".data,
   .plusNC isSpaceCh, .gplus 3 isNotBar] ++
  litStr " | PnL=$".data ++
  [.goptplus 4 '-' isDigitDot] ++
  litStr " | Capital=$".data ++
  [.gplus 5 isDigitDot] ++
  litStr " | Trades: ".data ++
  [.gplus 6 isDigitCh, .lit '/', .gplus 7 isDigitCh]

theorem line_re_eq : line_re = Re.gfixed 1 tsShape :: Re.lit ' ' :: lineReTail := rfl

theorem waysSeq_cons_ne_nil {r : Re} {rs : List Re} {s : List Char}
    (h : waysSeq (r :: rs) s ≠ []) :
    ∃ cs ∈ ways r s, waysSeq rs cs.2 ≠ [] := by
  by_contra hc
  push_neg at hc
  apply h
  rw [waysSeq, List.flatMap_eq_nil_iff]
  intro cs hcs
  rw [List.map_eq_nil_iff]
  exact hc cs hcs

theorem gfixed_match_of_ways_ne_nil (n : Nat) (ps : List (Char → Bool)) (s : List Char)
    (h : ways (Re.gfixed n ps) s ≠ []) : fixedMatch ps s = true := by
  cases hf : fixedMatch ps s with
  | true => rfl
  | false =>
    exfalso
    apply h
    have he : ways (Re.gfixed n ps) s
        = if fixedMatch ps s then [([(n, s.take ps.length)], s.drop ps.length)] else [] := rfl
    rw [he, hf]
    rfl

theorem gfixed_ways_eq (n : Nat) (ps : List (Char → Bool)) (s : List Char)
    (hf : fixedMatch ps s = true) :
    ways (Re.gfixed n ps) s = [([(n, s.take ps.length)], s.drop ps.length)] := by
  have he : ways (Re.gfixed n ps) s
      = if fixedMatch ps s then [([(n, s.take ps.length)], s.drop ps.length)] else [] := rfl
  rw [he, hf]
  rfl

theorem lit_head_of_ways_ne_nil (c : Char) (s : List Char)
    (h : ways (Re.lit c) s ≠ []) : s.head? = some c := by
  cases s with
  | nil => exact absurd rfl h
  | cons d t =>
    have he : ways (Re.lit c) (d :: t) = if d = c then [([], t)] else [] := rfl
    by_cases hd : d = c
    · rw [hd]; rfl
    · exact absurd (by rw [he, if_neg hd]) h

/-- C9: a line is matched only with its timestamp starting at the very
first character — a successful search forces the first 19 characters
into the timestamp shape followed by a space — and any line whose first
character is not an ASCII digit (in particular, any whitespace prefix)
is skipped without a record. -/
theorem c9_match_anchored_at_line_start :
    (∀ s : List Char, (matchLine s).isSome = true →
      fixedMatch tsShape s = true ∧ (s.drop 19).head? = some ' ') ∧
    (∀ (c : Char) (s : List Char), isDigitCh c = false →
      parseLineR (c :: s) = .skip) := by
  constructor
  · intro s h
    have hne : waysSeq line_re s ≠ [] := by
      intro he
      rw [matchLine, he] at h
      simp at h
    rw [line_re_eq] at hne
    obtain ⟨cs1, hcs1, hne2⟩ := waysSeq_cons_ne_nil hne
    have hf : fixedMatch tsShape s = true := by
      apply gfixed_match_of_ways_ne_nil 1 tsShape s
      intro he
      rw [he] at hcs1
      exact List.not_mem_nil _ hcs1
    refine ⟨hf, ?_⟩
    rw [gfixed_ways_eq 1 tsShape s hf] at hcs1
    have h2 : cs1.2 = s.drop tsShape.length := by
      rw [List.mem_singleton] at hcs1
      rw [hcs1]
    obtain ⟨cs2, hcs2, _⟩ := waysSeq_cons_ne_nil hne2
    have h3 : cs1.2.head? = some ' ' := by
      apply lit_head_of_ways_ne_nil ' ' cs1.2
      intro he
      rw [he] at hcs2
      exact List.not_mem_nil _ hcs2
    rw [h2] at h3
    exact h3
  · intro c s hc
    have hf : fixedMatch tsShape (c :: s) = false := by
      have he : fixedMatch tsShape (c :: s)
          = (isDigitCh c && fixedMatch tsShape.tail s) := rfl
      rw [he, hc]
      rfl
    have hgf : ways (Re.gfixed 1 tsShape) (c :: s) = [] := by
      have he : ways (Re.gfixed 1 tsShape) (c :: s)
          = if fixedMatch tsShape (c :: s) then
              [([(1, (c :: s).take tsShape.length)], (c :: s).drop tsShape.length)]
            else [] := rfl
      rw [he, hf]
      rfl
    have hw : waysSeq line_re (c :: s) = [] := by
      rw [line_re_eq, waysSeq, hgf]
      rfl
    rw [parseLineR, matchLine, hw]
    rfl

theorem c9_match_anchored_at_line_start_witness :
    (fixedMatch tsShape exLine1 = true ∧ (exLine1.drop 19).head? = some ' ') ∧
    parseLineR (' ' :: exLine1) = .skip :=
  ⟨c9_match_anchored_at_line_start.1 exLine1 rfl,
   c9_match_anchored_at_line_start.2 ' ' exLine1 rfl⟩

/-! ### Claim C1 (amended): which numeric conversions succeed -/

theorem dropWhile_head_not (p : Char → Bool) :
    ∀ (l : List Char) (c : Char) (r : List Char),
      l.dropWhile p = c :: r → p c = false := by
  intro l
  induction l with
  | nil => intro c r h; exact absurd h (by simp)
  | cons a t ih =>
    intro c r h
    rw [List.dropWhile_cons] at h
    by_cases ha : p a = true
    · rw [if_pos ha] at h
      exact ih c r h
    · rw [if_neg ha] at h
      cases h
      cases hpa : p a with
      | true => exact absurd hpa ha
      | false => rfl

theorem pyUFloat_isSome_of_good (u : List Char)
    (hall : ∀ c ∈ u, isDigitDot c = true)
    (hdot : u.countP (fun c => c == '.') ≤ 1)
    (hdig : ∃ c ∈ u, isDigitCh c = true) :
    (pyUFloat u).isSome = true := by
  cases hr : u.dropWhile isDigitCh with
  | nil =>
    have hu : u.takeWhile isDigitCh = u := by
      have h := List.takeWhile_append_dropWhile isDigitCh u
      rw [hr, List.append_nil] at h
      exact h
    obtain ⟨c0, hc0, _⟩ := hdig
    have hne : u ≠ [] := fun he => by rw [he] at hc0; exact List.not_mem_nil _ hc0
    simp [pyUFloat, hr, hu, hne]
  | cons c r2 =>
    have hc : isDigitCh c = false := dropWhile_head_not isDigitCh u c r2 hr
    have hcu : c ∈ u :=
      (List.dropWhile_suffix isDigitCh).subset (by rw [hr]; exact List.mem_cons_self _ _)
    have hcd : c = '.' := by
      have hd2 := hall c hcu
      rw [isDigitDot] at hd2
      rw [isDigitCh] at hc
      simp [hc] at hd2
      exact hd2
    subst hcd
    have hr3 : r2.dropWhile isDigitCh = [] := by
      cases hr3 : r2.dropWhile isDigitCh with
      | nil => rfl
      | cons c2 r4 =>
        exfalso
        have hc2 : isDigitCh c2 = false := dropWhile_head_not isDigitCh r2 c2 r4 hr3
        have hc2r2 : c2 ∈ r2 :=
          (List.dropWhile_suffix isDigitCh).subset
            (by rw [hr3]; exact List.mem_cons_self _ _)
        have hc2u : c2 ∈ u :=
          (List.dropWhile_suffix isDigitCh).subset
            (by rw [hr]; exact List.mem_cons_of_mem _ hc2r2)
        have hc2d : c2 = '.' := by
          have hd2 := hall c2 hc2u
          rw [isDigitDot] at hd2
          rw [isDigitCh] at hc2
          simp [hc2] at hd2
          exact hd2
        have hsplit : u = u.takeWhile isDigitCh ++ '.' :: r2 := by
          have h := List.takeWhile_append_dropWhile isDigitCh u
          rw [hr] at h
          exact h.symm
        have h1 : u.countP (fun c => c == '.')
            = (u.takeWhile isDigitCh).countP (fun c => c == '.')
              + ('.' :: r2).countP (fun c => c == '.') := by
          conv_lhs => rw [hsplit]
          rw [List.countP_append]
        have h2 : ('.' :: r2).countP (fun c => c == '.')
            = r2.countP (fun c => c == '.') + 1 := by
          rw [List.countP_cons]
          simp
        have h3 : 0 < r2.countP (fun c => c == '.') :=
          List.countP_pos_iff.2 ⟨c2, hc2r2, by rw [hc2d]; rfl⟩
        omega
    have hd : ¬(u.takeWhile isDigitCh = [] ∧ r2.takeWhile isDigitCh = []) := by
      rintro ⟨hta, htb⟩
      obtain ⟨c0, hc0, hc0d⟩ := hdig
      have hr2nil : r2 = [] := by
        have h := List.takeWhile_append_dropWhile isDigitCh r2
        rw [htb, hr3] at h
        simpa using h.symm
      have hu : u = ['.'] := by
        have h := List.takeWhile_append_dropWhile isDigitCh u
        rw [hr, hta, hr2nil] at h
        simpa using h.symm
      rw [hu] at hc0
      rcases List.mem_singleton.1 hc0 with rfl
      rw [isDigitCh] at hc0d
      exact absurd hc0d (by decide)
    simp only [pyUFloat, hr, List.head?_cons, List.tail_cons]
    rw [if_neg (List.cons_ne_nil _ _), if_pos trivial, if_pos hr3, if_neg hd]
    rfl

theorem pyFloat_isSome_of_good (t : List Char) (h : GoodFloatTok t) :
    (pyFloat t).isSome = true := by
  obtain ⟨hall, hdot, hdig⟩ := h
  by_cases hs : t.head? = some '-'
  · have he : stripSign t = t.tail := by rw [stripSign, if_pos hs]
    rw [he] at hall hdot hdig
    rw [pyFloat, if_pos hs]
    cases hpu : pyUFloat t.tail with
    | none =>
      have hg := pyUFloat_isSome_of_good t.tail hall hdot hdig
      rw [hpu] at hg
      exact Bool.noConfusion hg
    | some q => rfl
  · have he : stripSign t = t := by rw [stripSign, if_neg hs]
    rw [he] at hall hdot hdig
    rw [pyFloat, if_neg hs]
    exact pyUFloat_isSome_of_good t hall hdot hdig

/-- C1 (amended): for a line matched by the pattern, the trade-index and
total-trades conversions always succeed (those tokens are all digits),
but the PnL/Capital conversions are only guaranteed when each token is a
well-formed float over the admitted alphabet — at most one dot and at
least one digit after the optional sign; under that condition the line
cannot abort the run with a numeric-parse failure.  (The unconditional
form of the claim is refuted by `badNumLine`, whose matched PnL token
`1.2.3` aborts the run.) -/
theorem c1_amended_good_tokens_convert (s : List Char) (caps : Caps)
    (h : matchLine s = some caps)
    (h4 : GoodFloatTok (grp caps 4)) (h5 : GoodFloatTok (grp caps 5)) :
    parseLineR s ≠ .numError := by
  simp only [parseLineR, h]
  have g4 := pyFloat_isSome_of_good _ h4
  have g5 := pyFloat_isSome_of_good _ h5
  cases h4' : pyFloat (grp caps 4) with
  | none => rw [h4'] at g4; exact Bool.noConfusion g4
  | some p =>
    cases h5' : pyFloat (grp caps 5) with
    | none => rw [h5'] at g5; exact Bool.noConfusion g5
    | some c => exact fun he => LineResult.noConfusion he

theorem c1_amended_good_tokens_convert_witness : parseLineR exLine1 ≠ .numError :=
  c1_amended_good_tokens_convert exLine1 ((matchLine exLine1).getD []) rfl
    (by decide) (by decide)

end MSB
